import Mathlib

/-!
Verification of the VideoAnalysis repository core: the transcript codec
(src/transcription.py), the audio extractor and duration probe models,
and the scheduler / worker loop (src/worker.py, src/app.py).

Conventions of the shallow embedding:
* Python floats are modelled as exact rationals; the numeric examples of the
  spec are chosen so that the exact and the floating computation agree.
* Python exceptions are modelled as `Except` values or as tagged outcomes.
* The SQLAlchemy job store is modelled as a list of records in insertion
  (rowid) order; `ORDER BY created_at ASC ... first()` is modelled as the
  stable minimum over that list, matching the stable table scan of SQLite.
-/

/-- Model of Python `str.strip()`: drop leading and trailing whitespace. -/
def pyStrip (s : String) : String :=
  String.mk (((s.toList.dropWhile Char.isWhitespace).reverse.dropWhile
      Char.isWhitespace).reverse)

/-- Model of Python `int()` on a real value: truncation toward zero. -/
def pyTrunc (q : ℚ) : ℤ := if 0 ≤ q then ⌊q⌋ else ⌈q⌉

/-- Model of Python float `//`: floor division (the result is integral). -/
def pyFloorDiv (x m : ℚ) : ℚ := (⌊x / m⌋ : ℤ)

/-- Model of Python float `%` with the sign convention of the divisor. -/
def pyMod (x m : ℚ) : ℚ := x - m * ⌊x / m⌋

/-- Model of Python `round()` on a real value: nearest integer, ties to even. -/
def pyRound (q : ℚ) : ℤ :=
  if q - ⌊q⌋ < 1/2 then ⌊q⌋
  else if 1/2 < q - ⌊q⌋ then ⌊q⌋ + 1
  else if ⌊q⌋ % 2 = 0 then ⌊q⌋ else ⌊q⌋ + 1

/-- Zero-pad the decimal representation of a natural number to `width`. -/
def padNum (width : Nat) (n : Nat) : String :=
  let s := Nat.repr n
  String.mk (List.replicate (width - s.length) '0') ++ s

/-- Model of the Python format specifier `{v:0Nd}` on an integer: the zeros go
after the sign. -/
def padInt (width : Nat) (n : ℤ) : String :=
  if n < 0 then "-" ++ padNum (width - 1) n.natAbs else padNum width n.natAbs

/-- One timed chunk of transcribed speech. The Python dict keys are `start`,
`end` and `text`; `end` is a Lean keyword, hence the field name `endTime`. -/
structure Segment where
  start : ℚ
  endTime : ℚ
  text : String
deriving DecidableEq

/-- Model of Python `sep.join(parts)`. -/
def joinSep (sep : String) : List String → String
  | [] => ""
  | [x] => x
  | x :: y :: rest => x ++ sep ++ joinSep sep (y :: rest)

/-- Concatenation of a list of strings (the contents a sequence of
`f.write` calls produces). -/
def concatAll : List String → String
  | [] => ""
  | x :: rest => x ++ concatAll rest

/-- Embedding of `segments_to_text` (src/transcription.py:120-122):
`"\n".join(seg["text"].strip() for seg in segments)`. -/
def segmentsToText (segments : List Segment) : String :=
  joinSep "\n" (segments.map (fun s => pyStrip s.text))

/-- Embedding of the file contents written by `write_txt`
(src/transcription.py:125-129): one `f.write(seg["text"].strip() + "\n")`
per segment. -/
def writeTxtContent (segments : List Segment) : String :=
  concatAll (segments.map (fun s => pyStrip s.text ++ "\n"))

/-- Embedding of `format_srt_time` (src/transcription.py:111-117). -/
def formatSrtTime (seconds : ℚ) : String :=
  let hrs := pyTrunc (pyFloorDiv seconds 3600)
  let mins := pyTrunc (pyFloorDiv (pyMod seconds 3600) 60)
  let secs := pyTrunc (pyMod seconds 60)
  let millis := pyRound ((seconds - (pyTrunc seconds : ℚ)) * 1000)
  padInt 2 hrs ++ ":" ++ padInt 2 mins ++ ":" ++ padInt 2 secs ++ ","
    ++ padInt 3 millis

/-- One SRT entry as written by the loop body of `write_srt`
(src/transcription.py:132-139). -/
def srtEntry (i : Nat) (seg : Segment) : String :=
  Nat.repr i ++ "\n" ++ formatSrtTime seg.start ++ " --> "
    ++ formatSrtTime seg.endTime ++ "\n" ++ pyStrip seg.text ++ "\n\n"

/-- The `for i, seg in enumerate(segments, start=1)` loop of `write_srt`,
with the running index made explicit. -/
def srtFrom : Nat → List Segment → String
  | _, [] => ""
  | i, seg :: rest => srtEntry i seg ++ srtFrom (i + 1) rest

/-- Embedding of the file contents written by `write_srt`
(src/transcription.py:132-139). -/
def writeSrtContent (segments : List Segment) : String :=
  srtFrom 1 segments

/-- Rendering of the SRT output following the words of the spec: for each
segment a 1-based sequential index paired with the segment, each rendered to
an entry, all concatenated. Compared against `writeSrtContent`. -/
def srtSpecContent (segments : List Segment) : String :=
  concatAll ((List.enumFrom 1 segments).map (fun p => srtEntry p.1 p.2))

-- Basic lemmas about the numeric primitives.

-- Structural lemmas for the codec.

-- Audio extractor model (src/transcription.py:70-96).

/-- Outcome of the `subprocess.run([ffmpeg, ...])` call: the tool ran and
exited 0, the executable was absent (`FileNotFoundError`), or the tool exited
nonzero (`CalledProcessError` carrying its stderr). -/
inductive RunOutcome
  | ok
  | toolMissing
  | exitError (stderr : String)
deriving DecidableEq

/-- Message raised by `extract_audio` when the tool is absent
(src/transcription.py:92). -/
def ffmpegNotFoundMsg : String :=
  "FFmpeg not found. Install it and ensure it is on your PATH."

/-- Message raised by `extract_audio` on a nonzero exit
(src/transcription.py:95), carrying the decoded stderr of the tool. -/
def extractErrMsg (stderr : String) : String :=
  "Error extracting audio: " ++ stderr

/-- Embedding of `extract_audio` (src/transcription.py:70-96). The state is
the list of existing temporary files; `tempfile.mkstemp` creates the fresh
file `tmp`, and both failure handlers `os.unlink` it before raising
`RuntimeError`. Returns the raised-or-returned value and the final file
state. -/
def extractAudio (files : List String) (tmp : String) (r : RunOutcome) :
    Except String String × List String :=
  let files1 := files ++ [tmp]
  match r with
  | .ok => (Except.ok tmp, files1)
  | .toolMissing => (Except.error ffmpegNotFoundMsg, files1.erase tmp)
  | .exitError stderr => (Except.error (extractErrMsg stderr), files1.erase tmp)

-- Duration probe model (src/transcription.py:51-67).

/-- Digit-string parser used by the float model: all characters must be
decimal digits. -/
def parseDigits (cs : List Char) : Option Nat :=
  if cs = [] then none
  else if cs.all Char.isDigit then
    some (cs.foldl (fun a c => a * 10 + (c.toNat - 48)) 0)
  else none

/-- Model of Python `float()` on the unsigned decimal forms ffprobe prints
(`"123"`, `"123.456"`, `"1."`, `".5"`); anything else yields `none`,
modelling the `ValueError` that `get_video_duration` catches. -/
def parseUnsignedFloat (s : String) : Option ℚ :=
  match s.splitOn "." with
  | [ip] => (parseDigits ip.toList).map (fun n => (n : ℚ))
  | [ip, fp] =>
    match ip.toList, fp.toList with
    | [], [] => none
    | ics, [] => (parseDigits ics).map (fun n => (n : ℚ))
    | [], fcs => (parseDigits fcs).map (fun m => (m : ℚ) / (10 : ℚ) ^ fcs.length)
    | ics, fcs =>
      match parseDigits ics, parseDigits fcs with
      | some n, some m => some ((n : ℚ) + (m : ℚ) / (10 : ℚ) ^ fcs.length)
      | _, _ => none
  | _ => none

/-- Model of Python `float()` with an optional sign. -/
def pyFloat (s : String) : Option ℚ :=
  match s.toList with
  | '-' :: rest => (parseUnsignedFloat (String.mk rest)).map (fun q => -q)
  | '+' :: rest => parseUnsignedFloat (String.mk rest)
  | _ => parseUnsignedFloat s

/-- Outcome of the ffprobe `subprocess.run` call: the call itself raised
(for example `FileNotFoundError` when the probe tool is absent), or the tool
exited with a code and stdout. -/
inductive ProbeOutcome
  | raised
  | exited (code : Nat) (stdout : String)
deriving DecidableEq

/-- Embedding of `get_video_duration` (src/transcription.py:51-67):
`check=True` turns a nonzero exit into an exception, and the bare
`except Exception: return None` converts every failure — raised call,
nonzero exit, unparseable stdout — into `none`. -/
def getVideoDuration (r : ProbeOutcome) : Option ℚ :=
  match r with
  | .raised => none
  | .exited code out => if code = 0 then pyFloat (pyStrip out) else none

-- Scheduler / worker loop model (src/worker.py, src/app.py, src/models.py).

/-- The job status strings of src/models.py, modelled as an enumeration. -/
inductive JobStatus
  | pending
  | processing
  | done
  | failed
deriving DecidableEq

/-- One row of the `video` table (src/models.py:10-26). Timestamps are
modelled as natural numbers; `segments_json` stores a serialised segment
list, modelled as the list itself (the JSON round trip is faithful for the
segment values representable here). -/
structure Job where
  id : Nat
  filename : String
  filepath : String
  folder : String
  durationSeconds : Option ℚ
  status : JobStatus
  errorMessage : Option String
  transcriptText : Option String
  transcriptPreview : Option String
  segmentsJson : Option (List Segment)
  txtPath : Option String
  srtPath : Option String
  createdAt : Nat
  processedAt : Option Nat
deriving DecidableEq

/-- Phase of the single background worker: no thread running (`_running` is
false), looking at the queue at the top of the loop, or busy with the job of
the given id (the flag records whether the lazy duration probe of
src/worker.py:42-44 has run yet). -/
inductive WorkerPhase
  | off
  | looking
  | busy (id : Nat) (durDone : Bool)
deriving DecidableEq

/-- Scheduler state: the job table in insertion (rowid) order, the next
autoincrement id, and the worker phase. -/
structure SchedState where
  jobs : List Job
  nextId : Nat
  worker : WorkerPhase
deriving DecidableEq

/-- The initial state: empty table, autoincrement at 1, no worker. -/
def initState : SchedState := { jobs := [], nextId := 1, worker := .off }

/-- Model of `os.path.basename` for POSIX paths. -/
def basename (p : String) : String := (p.splitOn "/").getLastD p

/-- Model of `os.path.splitext(name)[0]`: the name up to the last dot. -/
def splitExtBase (name : String) : String :=
  let rev := name.toList.reverse
  if rev.contains '.' then
    String.mk ((rev.dropWhile (fun c => ¬(c = '.'))).drop 1).reverse
  else name

/-- A freshly enqueued job (src/app.py:69-76 and src/app.py:125-132):
status pending, no outputs, no error, no processed time. -/
def freshJob (id : Nat) (fp folder : String) (dur : Option ℚ) (now : Nat) :
    Job :=
  { id := id, filename := basename fp, filepath := fp, folder := folder,
    durationSeconds := dur, status := .pending, errorMessage := none,
    transcriptText := none, transcriptPreview := none, segmentsJson := none,
    txtPath := none, srtPath := none, createdAt := now, processedAt := none }

/-- Combine the head of the list with the stable minimum of its tail:
the tail minimum wins only when strictly older. -/
def stableMinCons (j : Job) : Option Job → Job
  | none => j
  | some b => if b.createdAt < j.createdAt then b else j

/-- The stable minimum by `createdAt`: among equal timestamps the earliest
element of the list wins, matching the stable rowid-order table scan that
backs `ORDER BY created_at ASC ... first()`. -/
def stableMin : List Job → Option Job
  | [] => none
  | j :: rest => some (stableMinCons j (stableMin rest))

/-- Embedding of the claim query of src/worker.py:27-32: the oldest job with
status pending, ties broken by insertion order. -/
def findOldestPending (jobs : List Job) : Option Job :=
  stableMin (jobs.filter (fun j => decide (j.status = JobStatus.pending)))

/-- Update the record with the given id (the ORM mutates the single row
with that primary key; reachable states have unique ids). -/
def updJob (jobs : List Job) (id : Nat) (f : Job → Job) : List Job :=
  jobs.map (fun j => if j.id = id then f j else j)

/-- Embedding of `start_processing` (src/worker.py:95-103): if the running
flag is set, return without change; otherwise set it and spawn the worker,
which starts at the top of its loop. -/
def startProcessing (s : SchedState) : SchedState :=
  if s.worker = WorkerPhase.off then { s with worker := .looking } else s

/-- Whether the single-flight `_running` flag is set. -/
def running (s : SchedState) : Prop := s.worker ≠ WorkerPhase.off

/-- Result of the transcription service call of `transcribe_audio`
(src/transcription.py:99-108): the ordered segments, or a service error. -/
inductive ServiceResult
  | ok (segs : List Segment)
  | err (msg : String)
deriving DecidableEq

/-- Message of the error the OpenAI client constructor raises inside
`transcribe_audio` when no credential is configured. Modelled from the spec:
the client library itself is not part of the repository; the spec states
that transcription requires a configured credential and fails without
one. -/
def credentialErrorMsg : String :=
  "The api_key client option must be set"

/-- Environment one pipeline run executes in: the ffmpeg outcome, whether
the transcription credential is configured, the service response, whether
the preferred output names already exist on disk (src/worker.py:63), and
whether writing the output files raises an IOError. -/
structure PipelineEnv where
  ffmpeg : RunOutcome
  credential : Bool
  service : ServiceResult
  outCollision : Bool
  writeFails : Option String
deriving DecidableEq

/-- Outcome of the pipeline body of the worker try block
(src/worker.py:40-68) for one job: the segments to persist, or the message
of the exception that reached the except handler. -/
inductive PipelineOutcome
  | success (segs : List Segment)
  | failure (msg : String)
deriving DecidableEq

/-- The pipeline steps of src/worker.py:46-68 in source order: extract
audio (raises the two extractor errors), transcribe (the client constructor
raises without a credential, the service can fail), then write the output
files (IOError). Any raise short-circuits to the except handler. -/
def runPipeline (env : PipelineEnv) : PipelineOutcome :=
  match env.ffmpeg with
  | .toolMissing => .failure ffmpegNotFoundMsg
  | .exitError stderr => .failure (extractErrMsg stderr)
  | .ok =>
    if env.credential then
      match env.service with
      | .err m => .failure m
      | .ok segs =>
        match env.writeFails with
        | some m => .failure m
        | none => .success segs
    else .failure credentialErrorMsg

/-- Output file path for a given extension, mirroring src/worker.py:56-65:
`output/<base>_transcript.<ext>`, or with the job id inserted when the
preferred name already exists. -/
def outPath (j : Job) (collision : Bool) (ext : String) : String :=
  let base := splitExtBase j.filename
  if collision then
    "output/" ++ base ++ "_" ++ Nat.repr j.id ++ "_transcript." ++ ext
  else "output/" ++ base ++ "_transcript." ++ ext

/-- The single commit that ends one job (src/worker.py:70-85): on success
all output fields, the done status and the processed time in one update; on
failure only status, error message and processed time. -/
def finishJob (env : PipelineEnv) (t : Nat) (j : Job) : Job :=
  match runPipeline env with
  | .success segs =>
    let full := segmentsToText segs
    { j with
      transcriptText := some full
      transcriptPreview := some (full.take 200)
      segmentsJson := some segs
      txtPath := some (outPath j env.outCollision "txt")
      srtPath := some (outPath j env.outCollision "srt")
      status := .done
      processedAt := some t }
  | .failure msg =>
    { j with
      status := .failed
      errorMessage := some msg
      processedAt := some t }

/-- Embedding of `retry` (src/app.py:248-258) restricted to one record:
only a failed job changes, to pending with error and processed time
cleared. -/
def retryJob (j : Job) : Job :=
  if j.status = JobStatus.failed then
    { j with status := .pending, errorMessage := none, processedAt := none }
  else j

/-- The observable events of the system: the Trigger enqueues a job
(src/app.py:64-79, 100-135) and signals `start_processing`; the worker polls
the queue (src/worker.py:26-37), runs the lazy duration probe
(src/worker.py:42-44), and finishes the job in one commit
(src/worker.py:46-85); an external retry request (src/app.py:248-258). -/
inductive SchedEvent
  | enqueue (fp folder : String) (dur : Option ℚ) (now : Nat)
  | start
  | poll
  | probe (d : Option ℚ)
  | finish (env : PipelineEnv) (t : Nat)
  | retry (id : Nat)

/-- One transition of the scheduler model; `none` when the event is not
enabled in this state (worker events require the matching phase). -/
def applyEvent (s : SchedState) : SchedEvent → Option SchedState
  | .enqueue fp folder dur now =>
    if s.jobs.any (fun j => decide (j.filepath = fp)) then some s
    else some { s with
      jobs := s.jobs ++ [freshJob s.nextId fp folder dur now]
      nextId := s.nextId + 1 }
  | .start => some (startProcessing s)
  | .poll =>
    match s.worker with
    | .looking =>
      match findOldestPending s.jobs with
      | some j => some { s with
          jobs := updJob s.jobs j.id
            (fun k => { k with status := JobStatus.processing })
          worker := .busy j.id false }
      | none => some { s with worker := .off }
    | _ => none
  | .probe d =>
    match s.worker with
    | .busy id false => some { s with
        jobs := updJob s.jobs id
          (fun k => if k.durationSeconds = none
            then { k with durationSeconds := d } else k)
        worker := .busy id true }
    | _ => none
  | .finish env t =>
    match s.worker with
    | .busy id true =>
      some { s with
        jobs := updJob s.jobs id (finishJob env t)
        worker := .looking }
    | _ => none
  | .retry id =>
    match s.jobs.find? (fun j => decide (j.id = id)) with
    | none => some s
    | some j =>
      if j.status = JobStatus.failed then
        some (startProcessing { s with jobs := updJob s.jobs id retryJob })
      else some s

/-- A run of the model: apply the events in order; `none` when one of them
is not enabled. -/
def applyTrace (s : SchedState) : List SchedEvent → Option SchedState
  | [] => some s
  | e :: es =>
    match applyEvent s e with
    | some s2 => applyTrace s2 es
    | none => none

/-- The states reachable from the initial state by enabled events. -/
inductive Reachable : SchedState → Prop
  | init : Reachable initState
  | step {s s2 : SchedState} {e : SchedEvent} :
      Reachable s → applyEvent s e = some s2 → Reachable s2

-- Store invariants.

/-- None of the four success outputs is populated. -/
def noOutputs (j : Job) : Prop :=
  j.transcriptText = none ∧ j.segmentsJson = none ∧ j.txtPath = none ∧
    j.srtPath = none

/-- All four success outputs are populated. -/
def allOutputs (j : Job) : Prop :=
  j.transcriptText.isSome ∧ j.segmentsJson.isSome ∧ j.txtPath.isSome ∧
    j.srtPath.isSome

/-- Per-record invariant: queued and in-flight jobs carry no outputs, failed
jobs carry no outputs but an error message and a processed time, done jobs
carry all outputs and a processed time. -/
def JobInv (j : Job) : Prop :=
  ((j.status = JobStatus.pending ∨ j.status = JobStatus.processing) →
    noOutputs j) ∧
  (j.status = JobStatus.failed →
    noOutputs j ∧ j.errorMessage.isSome ∧ j.processedAt.isSome) ∧
  (j.status = JobStatus.done → allOutputs j ∧ j.processedAt.isSome)

-- Update lemmas for the job table.

-- Lemmas for the stable-minimum claim query.

/-- Global invariant of the scheduler model: every record satisfies its
per-record invariant, ids are strictly increasing in insertion order and
below the autoincrement counter, every processing job is the one the worker
is busy with, and the worker is only ever busy with an existing processing
job. -/
structure StateInv (s : SchedState) : Prop where
  jobOK : ∀ j ∈ s.jobs, JobInv j
  idLt : ∀ j ∈ s.jobs, j.id < s.nextId
  idsSorted : List.Pairwise (· < ·) (s.jobs.map (fun j => j.id))
  procBusy : ∀ j ∈ s.jobs, j.status = JobStatus.processing →
    ∃ d, s.worker = WorkerPhase.busy j.id d
  busyProc : ∀ i d, s.worker = WorkerPhase.busy i d →
    ∀ j ∈ s.jobs, j.id = i → j.status = JobStatus.processing
  busyLt : ∀ i d, s.worker = WorkerPhase.busy i d → i < s.nextId

-- Concrete fixtures used by the witnesses.

/-- Pipeline environment in which every step succeeds (empty transcript). -/
def envPipeOk : PipelineEnv :=
  { ffmpeg := .ok, credential := true, service := .ok [],
    outCollision := false, writeFails := none }

/-- Pipeline environment with the extraction tool absent. -/
def envPipeNoTool : PipelineEnv := { envPipeOk with ffmpeg := .toolMissing }

/-- Pipeline environment with the transcription credential missing. -/
def envPipeNoCred : PipelineEnv := { envPipeOk with credential := false }

/-- Two enqueued jobs; the first fails with a missing tool, the second
succeeds; then the queue drains. -/
def c8Trace : List SchedEvent :=
  [.enqueue "/v/a.mp4" "/v" none 1, .enqueue "/v/b.mp4" "/v" none 2,
   .start, .poll, .probe none, .finish envPipeNoTool 10,
   .poll, .probe none, .finish envPipeOk 20, .poll]

/-- One job processed to completion. -/
def c3Trace : List SchedEvent :=
  [.enqueue "/v/a.mp4" "/v" none 1, .start, .poll, .probe none,
   .finish envPipeOk 9]

/-- The done record the run of `c3Trace` produces. -/
def c3Job : Job :=
  { id := 1
    filename := "a.mp4"
    filepath := "/v/a.mp4"
    folder := "/v"
    durationSeconds := none
    status := .done
    errorMessage := none
    transcriptText := some ""
    transcriptPreview := some ""
    segmentsJson := some []
    txtPath := some "output/a_transcript.txt"
    srtPath := some "output/a_transcript.srt"
    createdAt := 1
    processedAt := some 9 }

/-- The state the run of `c3Trace` ends in. -/
def c3State : SchedState :=
  { jobs := [c3Job], nextId := 2, worker := .looking }

/-- The state right after `start_processing` on the initial state. -/
def s1Looking : SchedState := { jobs := [], nextId := 1, worker := .looking }

/-- Two pending jobs with equal `createdAt`. -/
def jTieA : Job := freshJob 1 "/v/a.mp4" "/v" none 5

/-- Second pending job with the same `createdAt` as `jTieA`. -/
def jTieB : Job := freshJob 2 "/v/b.mp4" "/v" none 5

/-- A failed record as `retry` finds it. -/
def jFailed : Job :=
  { id := 1
    filename := "a.mp4"
    filepath := "/v/a.mp4"
    folder := "/v"
    durationSeconds := some 12
    status := .failed
    errorMessage := some "boom"
    transcriptText := none
    transcriptPreview := none
    segmentsJson := none
    txtPath := none
    srtPath := none
    createdAt := 3
    processedAt := some 7 }

/-- A store holding only `jFailed`, no worker running. -/
def sRetry : SchedState := { jobs := [jFailed], nextId := 2, worker := .off }

/-- A claimed in-flight record. -/
def jProc : Job :=
  { id := 1
    filename := "a.mp4"
    filepath := "/v/a.mp4"
    folder := "/v"
    durationSeconds := none
    status := .processing
    errorMessage := none
    transcriptText := none
    transcriptPreview := none
    segmentsJson := none
    txtPath := none
    srtPath := none
    createdAt := 1
    processedAt := none }

/-- A state whose worker is busy with `jProc`, duration probe done. -/
def sBusy : SchedState := { jobs := [jProc], nextId := 2, worker := .busy 1 true }

theorem pyTrunc_intCast (n : ℤ) : pyTrunc (n : ℚ) = n := by
  unfold pyTrunc
  split_ifs <;> simp

theorem pyTrunc_of_nonneg {q : ℚ} (h : 0 ≤ q) : pyTrunc q = ⌊q⌋ :=
  if_pos h

theorem pyTrunc_pyFloorDiv (x m : ℚ) : pyTrunc (pyFloorDiv x m) = ⌊x / m⌋ := by
  unfold pyFloorDiv
  exact pyTrunc_intCast _

theorem pyMod_eq_mul_fract (x m : ℚ) (hm : m ≠ 0) :
    pyMod x m = m * Int.fract (x / m) := by
  unfold pyMod Int.fract
  field_simp

theorem pyMod_nonneg (x : ℚ) {m : ℚ} (hm : 0 < m) : 0 ≤ pyMod x m := by
  rw [pyMod_eq_mul_fract x m hm.ne']
  exact mul_nonneg hm.le (Int.fract_nonneg _)

theorem pyMod_lt (x : ℚ) {m : ℚ} (hm : 0 < m) : pyMod x m < m := by
  rw [pyMod_eq_mul_fract x m hm.ne']
  calc m * Int.fract (x / m) < m * 1 :=
        (mul_lt_mul_left hm).2 (Int.fract_lt_one _)
    _ = m := mul_one m

theorem pyRound_eq_floor_or_add_one (q : ℚ) :
    pyRound q = ⌊q⌋ ∨ pyRound q = ⌊q⌋ + 1 := by
  unfold pyRound
  split_ifs <;> simp

theorem pyRound_nearest (q : ℚ) : |(pyRound q : ℚ) - q| ≤ 1/2 := by
  have h0 : (⌊q⌋ : ℚ) ≤ q := Int.floor_le q
  have h1 : q < ⌊q⌋ + 1 := Int.lt_floor_add_one q
  unfold pyRound
  split_ifs with ha hb hc
  · rw [abs_of_nonpos (by linarith)]
    linarith
  · push_cast
    rw [abs_of_nonneg (by linarith)]
    linarith
  · have : q - ⌊q⌋ = 1/2 := le_antisymm (not_lt.1 hb) (not_lt.1 ha)
    rw [abs_of_nonpos (by linarith)]
    linarith
  · have : q - ⌊q⌋ = 1/2 := le_antisymm (not_lt.1 hb) (not_lt.1 ha)
    push_cast
    rw [abs_of_nonneg (by linarith)]
    linarith

theorem pyRound_nonneg {q : ℚ} (h : 0 ≤ q) : 0 ≤ pyRound q := by
  have hf : (0 : ℤ) ≤ ⌊q⌋ := Int.floor_nonneg.2 h
  rcases pyRound_eq_floor_or_add_one q with he | he <;> omega

theorem pyRound_le {q : ℚ} {n : ℤ} (h : q < n) : pyRound q ≤ n := by
  have hf : ⌊q⌋ < n := Int.floor_lt.2 h
  rcases pyRound_eq_floor_or_add_one q with he | he <;> omega

theorem writeTxtContent_cons (a : Segment) (l : List Segment) :
    writeTxtContent (a :: l) = (pyStrip a.text ++ "\n") ++ writeTxtContent l :=
  rfl

theorem segmentsToText_cons (a b : Segment) (l : List Segment) :
    segmentsToText (a :: b :: l)
      = (pyStrip a.text ++ "\n") ++ segmentsToText (b :: l) :=
  rfl

/-- The file contents of `write_txt` equal the joined transcript text of
`segments_to_text` plus one trailing newline, for every nonempty segment
list. -/
theorem writeTxt_eq_text_append_newline :
    ∀ segs : List Segment, segs ≠ [] →
      writeTxtContent segs = segmentsToText segs ++ "\n"
  | [], h => absurd rfl h
  | [a], _ => by
      simp [writeTxtContent, segmentsToText, joinSep, concatAll]
  | a :: b :: rest, _ => by
      have ih := writeTxt_eq_text_append_newline (b :: rest) (by simp)
      rw [writeTxtContent_cons, ih, segmentsToText_cons,
        ← String.append_assoc]

/-- The enumerate-with-counter loop of `write_srt` renders exactly the
spec-side 1-based indexed entries. -/
theorem srtFrom_eq_enumFrom :
    ∀ (n : Nat) (segs : List Segment),
      srtFrom n segs
        = concatAll ((List.enumFrom n segs).map (fun p => srtEntry p.1 p.2))
  | _, [] => rfl
  | n, a :: rest => by
      have ih := srtFrom_eq_enumFrom (n + 1) rest
      simp only [srtFrom, List.enumFrom, List.map_cons, concatAll, ih]

theorem writeSrt_eq_srtSpec (segs : List Segment) :
    writeSrtContent segs = srtSpecContent segs :=
  srtFrom_eq_enumFrom 1 segs

/-- Claim C4 (counterexample): `format_srt_time` does not always emit an
exactly-three-digit millisecond field under a consistent rounding rule. At
input `0.9996` seconds (`2499/2500`), the fractional part rounds to the full
second `1000`, and the code formats it with `%03d` as the four-digit field
`1000` without carrying into the seconds: the output is `00:00:00,1000`
(13 characters), which is neither `00:00:00,999` nor the carried
`00:00:01,000`. -/
theorem formatSrtTime_four_digit_millis :
    formatSrtTime (2499/2500) = "00:00:00,1000" ∧
    (formatSrtTime (2499/2500)).length = 13 ∧
    formatSrtTime (2499/2500) ≠ "00:00:00,999" ∧
    formatSrtTime (2499/2500) ≠ "00:00:01,000" := by
  refine ⟨?_, ?_, ?_, ?_⟩ <;> with_unfolding_all decide

/-- Claim C4 (amended): `write_srt` emits for each segment a 1-based
sequential index, a `START --> END` line, the trimmed text and a blank line
(`writeSrtContent` equals the spec-side indexed rendering); each timestamp is
`HH:MM:SS,mmm` with zero-padded unbounded hours, minutes and seconds in
`[0, 60)`, and a millisecond value obtained by rounding the fractional second
to the nearest millisecond (ties to even), except that a fraction that rounds
up to a full second is emitted as the four-digit field `1000` without a
carry; `0` maps to `00:00:00,000`, `3661.5` to `01:01:01,500` and `7199.999`
to `01:59:59,999`. -/
theorem writeSrt_rendering_amended :
    (∀ segs : List Segment, writeSrtContent segs = srtSpecContent segs) ∧
    (∀ q : ℚ, 0 ≤ q →
      formatSrtTime q =
        padInt 2 ⌊q / 3600⌋ ++ ":" ++ padInt 2 ⌊pyMod q 3600 / 60⌋ ++ ":"
          ++ padInt 2 ⌊pyMod q 60⌋ ++ ","
          ++ padInt 3 (pyRound (Int.fract q * 1000)) ∧
      0 ≤ ⌊q / 3600⌋ ∧
      0 ≤ ⌊pyMod q 3600 / 60⌋ ∧ ⌊pyMod q 3600 / 60⌋ < 60 ∧
      0 ≤ ⌊pyMod q 60⌋ ∧ ⌊pyMod q 60⌋ < 60 ∧
      0 ≤ pyRound (Int.fract q * 1000) ∧
      pyRound (Int.fract q * 1000) ≤ 1000 ∧
      |(pyRound (Int.fract q * 1000) : ℚ) - Int.fract q * 1000| ≤ 1/2) ∧
    formatSrtTime 0 = "00:00:00,000" ∧
    formatSrtTime (7323/2) = "01:01:01,500" ∧
    formatSrtTime (7199999/1000) = "01:59:59,999" := by
  refine ⟨writeSrt_eq_srtSpec, ?_, ?_, ?_, ?_⟩
  · intro q hq
    have h3600 : (0:ℚ) < 3600 := by norm_num
    have h60 : (0:ℚ) < 60 := by norm_num
    have hfr0 : 0 ≤ Int.fract q := Int.fract_nonneg q
    have hfr1 : Int.fract q < 1 := Int.fract_lt_one q
    refine ⟨?_, ?_, ?_, ?_, ?_, ?_, ?_, ?_, ?_⟩
    · unfold formatSrtTime
      rw [pyTrunc_pyFloorDiv, pyTrunc_pyFloorDiv,
        pyTrunc_of_nonneg (pyMod_nonneg q h60), pyTrunc_of_nonneg hq,
        Int.self_sub_floor]
    · exact Int.floor_nonneg.2 (div_nonneg hq h3600.le)
    · exact Int.floor_nonneg.2 (div_nonneg (pyMod_nonneg q h3600) h60.le)
    · exact Int.floor_lt.2 (by
        rw [div_lt_iff₀ h60]
        calc pyMod q 3600 < 3600 := pyMod_lt q h3600
          _ = (60 : ℚ) * 60 := by norm_num
          _ = ((60:ℤ) : ℚ) * 60 := by norm_num)
    · exact Int.floor_nonneg.2 (pyMod_nonneg q h60)
    · exact Int.floor_lt.2 (by
        calc pyMod q 60 < 60 := pyMod_lt q h60
          _ = ((60:ℤ) : ℚ) := by norm_num)
    · exact pyRound_nonneg (mul_nonneg hfr0 (by norm_num))
    · exact pyRound_le (by
        calc Int.fract q * 1000 < 1 * 1000 := by
              exact mul_lt_mul_of_pos_right hfr1 (by norm_num)
          _ = ((1000:ℤ) : ℚ) := by norm_num)
    · exact pyRound_nearest _
  · with_unfolding_all decide
  · with_unfolding_all decide
  · with_unfolding_all decide

/-- Witness for `writeSrt_rendering_amended`: its quantified part applied at
the concrete nonnegative input `2`. -/
theorem writeSrt_rendering_amended_witness :
    (0 : ℚ) ≤ 2 ∧
    (formatSrtTime 2 =
        padInt 2 ⌊(2:ℚ) / 3600⌋ ++ ":" ++ padInt 2 ⌊pyMod 2 3600 / 60⌋ ++ ":"
          ++ padInt 2 ⌊pyMod 2 60⌋ ++ ","
          ++ padInt 3 (pyRound (Int.fract (2:ℚ) * 1000)) ∧
      0 ≤ ⌊(2:ℚ) / 3600⌋ ∧
      0 ≤ ⌊pyMod 2 3600 / 60⌋ ∧ ⌊pyMod (2:ℚ) 3600 / 60⌋ < 60 ∧
      0 ≤ ⌊pyMod (2:ℚ) 60⌋ ∧ ⌊pyMod (2:ℚ) 60⌋ < 60 ∧
      0 ≤ pyRound (Int.fract (2:ℚ) * 1000) ∧
      pyRound (Int.fract (2:ℚ) * 1000) ≤ 1000 ∧
      |(pyRound (Int.fract (2:ℚ) * 1000) : ℚ) - Int.fract (2:ℚ) * 1000| ≤ 1/2) :=
  ⟨by norm_num, writeSrt_rendering_amended.2.1 2 (by norm_num)⟩

/-- Claim C5 (counterexample): the stored transcript text produced by
`segments_to_text` is newline-separated, not newline-terminated: on the
spec example it renders `"Hello\nworld"`, not `"Hello\nworld\n"`. -/
theorem segmentsToText_no_trailing_newline :
    segmentsToText [⟨0, 1, " Hello "⟩, ⟨1, 2, "world"⟩] = "Hello\nworld" ∧
    segmentsToText [⟨0, 1, " Hello "⟩, ⟨1, 2, "world"⟩] ≠ "Hello\nworld\n" := by
  refine ⟨?_, ?_⟩ <;> with_unfolding_all decide

/-- Claim C5 (amended): the `.txt` file contents written by `write_txt` are
one trimmed line per segment in order, each newline-terminated, rendering
`"Hello\nworld\n"` on the spec example; the stored transcript produced by
`segments_to_text` is the same lines joined by `"\n"` without the trailing
newline, i.e. the file contents equal the stored text plus one final
newline (for every nonempty segment list), and on the example the stored
text is `"Hello\nworld"`. -/
theorem plain_text_rendering_amended :
    (∀ segs : List Segment, segs ≠ [] →
      writeTxtContent segs = segmentsToText segs ++ "\n") ∧
    writeTxtContent [⟨0, 1, " Hello "⟩, ⟨1, 2, "world"⟩] = "Hello\nworld\n" ∧
    segmentsToText [⟨0, 1, " Hello "⟩, ⟨1, 2, "world"⟩] = "Hello\nworld" := by
  refine ⟨writeTxt_eq_text_append_newline, ?_, ?_⟩ <;> with_unfolding_all decide

/-- Witness for `plain_text_rendering_amended`: the nonemptiness hypothesis
discharged at a concrete one-segment list. -/
theorem plain_text_rendering_amended_witness :
    ([⟨0, 1, "a"⟩] : List Segment) ≠ [] ∧
    writeTxtContent [⟨0, 1, "a"⟩] = segmentsToText [⟨0, 1, "a"⟩] ++ "\n" :=
  ⟨by decide, plain_text_rendering_amended.1 _ (by decide)⟩

theorem erase_fresh_append {files : List String} {tmp : String}
    (h : tmp ∉ files) : (files ++ [tmp]).erase tmp = files := by
  rw [List.erase_append_right _ h, List.erase_cons_head, List.append_nil]

/-- Claim C7: `extract_audio` raises a tool-not-found error when the
extraction tool is absent and an extraction-failed error carrying the tool
diagnostic output on a nonzero exit; on every failure path the temporary
audio file is deleted before the error propagates, so the file state after a
failure equals the state before the call and no partial audio file
survives. -/
theorem extractAudio_failure_cleanup (files : List String) (tmp : String)
    (r : RunOutcome) (hfresh : tmp ∉ files) :
    (r = RunOutcome.toolMissing →
      extractAudio files tmp r = (Except.error ffmpegNotFoundMsg, files)) ∧
    (∀ e, r = RunOutcome.exitError e →
      extractAudio files tmp r = (Except.error (extractErrMsg e), files)) ∧
    (r = RunOutcome.ok →
      extractAudio files tmp r = (Except.ok tmp, files ++ [tmp])) ∧
    (∀ res fs, extractAudio files tmp r = (res, fs) →
      ∀ m, res = Except.error m → fs = files ∧ tmp ∉ fs) := by
  refine ⟨?_, ?_, ?_, ?_⟩
  · rintro rfl
    simp [extractAudio, erase_fresh_append hfresh]
  · rintro e rfl
    simp [extractAudio, erase_fresh_append hfresh]
  · rintro rfl
    rfl
  · rintro res fs hea m rfl
    cases r with
    | ok => simp [extractAudio] at hea
    | toolMissing =>
        simp [extractAudio, erase_fresh_append hfresh] at hea
        exact ⟨hea.2.symm ▸ rfl, hea.2.symm ▸ hfresh⟩
    | exitError e =>
        simp [extractAudio, erase_fresh_append hfresh] at hea
        exact ⟨hea.2.symm ▸ rfl, hea.2.symm ▸ hfresh⟩

/-- Witness for `extractAudio_failure_cleanup` at a concrete call. -/
theorem extractAudio_failure_cleanup_witness :
    ("/tmp/x.mp3" ∉ (["/v/a.mp4"] : List String)) ∧
    extractAudio ["/v/a.mp4"] "/tmp/x.mp3" (RunOutcome.exitError "bad codec")
      = (Except.error (extractErrMsg "bad codec"), ["/v/a.mp4"]) :=
  ⟨by decide,
    (extractAudio_failure_cleanup ["/v/a.mp4"] "/tmp/x.mp3"
      (RunOutcome.exitError "bad codec") (by decide)).2.1 "bad codec" rfl⟩

theorem jobInv_fresh (id : Nat) (fp folder : String) (dur : Option ℚ)
    (now : Nat) : JobInv (freshJob id fp folder dur now) := by
  refine ⟨fun _ => ⟨rfl, rfl, rfl, rfl⟩, fun h => ?_, fun h => ?_⟩ <;>
    simp [freshJob] at h

theorem jobInv_processing {j : Job} (hj : JobInv j)
    (hp : j.status = JobStatus.pending) :
    JobInv { j with status := JobStatus.processing } := by
  refine ⟨fun _ => hj.1 (Or.inl hp), fun h => ?_, fun h => ?_⟩ <;> simp at h

theorem jobInv_duration {j : Job} (hj : JobInv j) (d : Option ℚ) :
    JobInv { j with durationSeconds := d } :=
  hj

theorem jobInv_retry {j : Job} (hj : JobInv j) : JobInv (retryJob j) := by
  unfold retryJob
  by_cases hst : j.status = JobStatus.failed
  · rw [if_pos hst]
    refine ⟨fun _ => (hj.2.1 hst).1, fun h => ?_, fun h => ?_⟩ <;> simp at h
  · rw [if_neg hst]
    exact hj

theorem finishJob_id (env : PipelineEnv) (t : Nat) (j : Job) :
    (finishJob env t j).id = j.id := by
  unfold finishJob
  cases runPipeline env <;> rfl

theorem finishJob_status (env : PipelineEnv) (t : Nat) (j : Job) :
    (finishJob env t j).status ≠ JobStatus.processing := by
  unfold finishJob
  cases runPipeline env <;> simp

theorem jobInv_finish (env : PipelineEnv) (t : Nat) {j : Job}
    (hno : noOutputs j) : JobInv (finishJob env t j) := by
  unfold finishJob
  cases hrp : runPipeline env with
  | success segs =>
    refine ⟨fun h => ?_, fun h => ?_, fun _ => ⟨⟨rfl, rfl, rfl, rfl⟩, rfl⟩⟩ <;>
      simp at h
  | failure msg =>
    refine ⟨fun h => ?_, fun _ => ⟨hno, rfl, rfl⟩, fun h => ?_⟩ <;> simp at h

theorem retryJob_id (j : Job) : (retryJob j).id = j.id := by
  unfold retryJob
  by_cases hst : j.status = JobStatus.failed <;> simp [hst]

theorem mem_updJob_of_ne {jobs : List Job} {j : Job} {id : Nat}
    {f : Job → Job} (hj : j ∈ jobs) (hne : j.id ≠ id) :
    j ∈ updJob jobs id f :=
  List.mem_map.2 ⟨j, hj, by simp [hne]⟩

theorem mem_updJob_self {jobs : List Job} {j : Job} {id : Nat}
    {f : Job → Job} (hj : j ∈ jobs) (he : j.id = id) :
    f j ∈ updJob jobs id f :=
  List.mem_map.2 ⟨j, hj, by simp [he]⟩

theorem mem_updJob_elim {jobs : List Job} {j2 : Job} {id : Nat}
    {f : Job → Job} (h : j2 ∈ updJob jobs id f) :
    ∃ j, j ∈ jobs ∧ ((j.id = id ∧ j2 = f j) ∨ (j.id ≠ id ∧ j2 = j)) := by
  rcases List.mem_map.1 h with ⟨j, hj, he⟩
  by_cases hid : j.id = id
  · rw [if_pos hid] at he
    exact ⟨j, hj, Or.inl ⟨hid, he.symm⟩⟩
  · rw [if_neg hid] at he
    exact ⟨j, hj, Or.inr ⟨hid, he.symm⟩⟩

theorem updJob_map_id {jobs : List Job} {id : Nat} {f : Job → Job}
    (hf : ∀ j, (f j).id = j.id) :
    (updJob jobs id f).map (fun j => j.id) = jobs.map (fun j => j.id) := by
  unfold updJob
  rw [List.map_map]
  apply List.map_congr_left
  intro j _
  by_cases hid : j.id = id <;> simp [hid, hf j]

theorem id_inj {jobs : List Job}
    (hs : List.Pairwise (· < ·) (jobs.map (fun j => j.id))) :
    ∀ a ∈ jobs, ∀ b ∈ jobs, a.id = b.id → a = b := by
  induction jobs with
  | nil => intro a ha; cases ha
  | cons x rest ih =>
    rw [List.map_cons, List.pairwise_cons] at hs
    intro a ha b hb he
    rcases List.mem_cons.1 ha with ha1 | ha1 <;>
      rcases List.mem_cons.1 hb with hb1 | hb1
    · rw [ha1, hb1]
    · subst ha1
      have hlt := hs.1 b.id (List.mem_map.2 ⟨b, hb1, rfl⟩)
      omega
    · subst hb1
      have hlt := hs.1 a.id (List.mem_map.2 ⟨a, ha1, rfl⟩)
      omega
    · exact ih hs.2 a ha1 b hb1 he

theorem stableMin_eq_none : ∀ {l : List Job}, stableMin l = none → l = []
  | [], _ => rfl
  | _ :: _, h => by simp [stableMin] at h

theorem stableMin_mem : ∀ {l : List Job} {j : Job},
    stableMin l = some j → j ∈ l
  | [], _, h => by cases h
  | a :: rest, j, h => by
    simp only [stableMin, Option.some.injEq] at h
    cases hr : stableMin rest with
    | none =>
      rw [hr] at h
      simp only [stableMinCons] at h
      exact h ▸ List.mem_cons_self a rest
    | some b =>
      rw [hr] at h
      simp only [stableMinCons] at h
      by_cases hlt : b.createdAt < a.createdAt
      · rw [if_pos hlt] at h
        exact List.mem_cons_of_mem a (h ▸ stableMin_mem hr)
      · rw [if_neg hlt] at h
        exact h ▸ List.mem_cons_self a rest

theorem stableMin_min : ∀ {l : List Job} {j : Job},
    stableMin l = some j → ∀ k ∈ l, j.createdAt ≤ k.createdAt
  | [], _, h => by cases h
  | a :: rest, j, h => by
    simp only [stableMin, Option.some.injEq] at h
    cases hr : stableMin rest with
    | none =>
      rw [hr] at h
      simp only [stableMinCons] at h
      subst h
      rw [stableMin_eq_none hr]
      intro k hk
      rcases List.mem_cons.1 hk with rfl | hk
      · exact le_refl _
      · cases hk
    | some b =>
      rw [hr] at h
      simp only [stableMinCons] at h
      by_cases hlt : b.createdAt < a.createdAt
      · rw [if_pos hlt] at h
        subst h
        intro k hk
        rcases List.mem_cons.1 hk with rfl | hk
        · exact le_of_lt hlt
        · exact stableMin_min hr k hk
      · rw [if_neg hlt] at h
        subst h
        intro k hk
        rcases List.mem_cons.1 hk with rfl | hk
        · exact le_refl _
        · exact le_trans (not_lt.1 hlt) (stableMin_min hr k hk)

theorem stableMin_first : ∀ {l : List Job} {j : Job},
    stableMin l = some j →
    ∃ l1 l2, l = l1 ++ j :: l2 ∧ ∀ k ∈ l1, j.createdAt < k.createdAt
  | [], _, h => by cases h
  | a :: rest, j, h => by
    simp only [stableMin, Option.some.injEq] at h
    cases hr : stableMin rest with
    | none =>
      rw [hr] at h
      simp only [stableMinCons] at h
      subst h
      exact ⟨[], rest, rfl, by intro k hk; cases hk⟩
    | some b =>
      rw [hr] at h
      simp only [stableMinCons] at h
      by_cases hlt : b.createdAt < a.createdAt
      · rw [if_pos hlt] at h
        subst h
        rcases stableMin_first hr with ⟨l1, l2, hdec, hmin⟩
        refine ⟨a :: l1, l2, by rw [hdec, List.cons_append], ?_⟩
        intro k hk
        rcases List.mem_cons.1 hk with rfl | hk
        · exact hlt
        · exact hmin k hk
      · rw [if_neg hlt] at h
        subst h
        exact ⟨[], rest, rfl, by intro k hk; cases hk⟩

theorem findOldestPending_none_iff (jobs : List Job) :
    findOldestPending jobs = none ↔
      ∀ j ∈ jobs, j.status ≠ JobStatus.pending := by
  unfold findOldestPending
  constructor
  · intro h j hj hp
    have hnil := stableMin_eq_none h
    rw [List.filter_eq_nil_iff] at hnil
    exact hnil j hj (by simp [hp])
  · intro h
    have hnil : jobs.filter (fun j => decide (j.status = JobStatus.pending))
        = [] := by
      rw [List.filter_eq_nil_iff]
      intro j hj
      simp [h j hj]
    rw [hnil]
    rfl

theorem findOldestPending_spec {jobs : List Job} {j : Job}
    (h : findOldestPending jobs = some j) :
    j ∈ jobs ∧ j.status = JobStatus.pending ∧
      ∀ k ∈ jobs, k.status = JobStatus.pending →
        j.createdAt ≤ k.createdAt := by
  unfold findOldestPending at h
  have hmem := stableMin_mem h
  rw [List.mem_filter] at hmem
  refine ⟨hmem.1, by simpa using hmem.2, ?_⟩
  intro k hk hkp
  exact stableMin_min h k (List.mem_filter.2 ⟨hk, by simp [hkp]⟩)

theorem findOldestPending_tie {jobs : List Job} {j : Job}
    (hs : List.Pairwise (· < ·) (jobs.map (fun j => j.id)))
    (h : findOldestPending jobs = some j) :
    ∀ k ∈ jobs, k.status = JobStatus.pending →
      k.createdAt = j.createdAt → j.id ≤ k.id := by
  unfold findOldestPending at h
  have hp : List.Pairwise (fun a b : Job => a.id < b.id) jobs :=
    List.pairwise_map.1 hs
  have hpf : List.Pairwise (fun a b : Job => a.id < b.id)
      (jobs.filter (fun j => decide (j.status = JobStatus.pending))) :=
    hp.sublist (List.filter_sublist jobs)
  rcases stableMin_first h with ⟨l1, l2, hdec, hmin⟩
  intro k hk hkp hkc
  have hkf : k ∈ jobs.filter (fun j => decide (j.status = JobStatus.pending)) :=
    List.mem_filter.2 ⟨hk, by simp [hkp]⟩
  rw [hdec] at hkf hpf
  rcases List.mem_append.1 hkf with hk1 | hk2
  · exact absurd hkc (by exact ne_of_gt (hmin k hk1))
  · rcases List.mem_cons.1 hk2 with rfl | hk2
    · exact le_refl _
    · have := (List.pairwise_cons.1 (List.pairwise_append.1 hpf).2.1).1
      exact le_of_lt (this k hk2)

theorem inv_initState : StateInv initState := by
  refine ⟨?_, ?_, ?_, ?_, ?_, ?_⟩ <;> simp [initState]

theorem inv_startProcessing {s : SchedState} (inv : StateInv s) :
    StateInv (startProcessing s) := by
  unfold startProcessing
  by_cases hw : s.worker = WorkerPhase.off
  · rw [if_pos hw]
    refine ⟨inv.jobOK, inv.idLt, inv.idsSorted, ?_, ?_, ?_⟩
    · intro j hj hp
      rcases inv.procBusy j hj hp with ⟨d, hd⟩
      rw [hw] at hd
      exact absurd hd (by simp)
    · intro i d hd
      exact absurd hd (by simp)
    · intro i d hd
      exact absurd hd (by simp)
  · rw [if_neg hw]
    exact inv

theorem inv_applyEvent {s s2 : SchedState} {e : SchedEvent}
    (inv : StateInv s) (h : applyEvent s e = some s2) : StateInv s2 := by
  cases e with
  | enqueue fp folder dur now =>
    simp only [applyEvent] at h
    by_cases hex : s.jobs.any (fun j => decide (j.filepath = fp)) = true
    · rw [if_pos hex] at h
      injection h with h
      subst h
      exact inv
    · rw [if_neg hex] at h
      injection h with h
      subst h
      refine ⟨?_, ?_, ?_, ?_, ?_, ?_⟩
      · intro j hj
        rcases List.mem_append.1 hj with hj | hj
        · exact inv.jobOK j hj
        · rw [List.mem_singleton] at hj
          subst hj
          exact jobInv_fresh _ _ _ _ _
      · intro j hj
        rcases List.mem_append.1 hj with hj | hj
        · exact Nat.lt_succ_of_lt (inv.idLt j hj)
        · rw [List.mem_singleton] at hj
          subst hj
          exact Nat.lt_succ_self _
      · rw [List.map_append]
        refine List.pairwise_append.2
          ⟨inv.idsSorted, List.pairwise_singleton _ _, ?_⟩
        intro a ha b hb
        rcases List.mem_map.1 ha with ⟨j, hj, rfl⟩
        rw [List.map_singleton, List.mem_singleton] at hb
        subst hb
        exact inv.idLt j hj
      · intro j hj hp
        rcases List.mem_append.1 hj with hj | hj
        · exact inv.procBusy j hj hp
        · rw [List.mem_singleton] at hj
          subst hj
          simp [freshJob] at hp
      · intro i d hd j hj hid
        rcases List.mem_append.1 hj with hj | hj
        · exact inv.busyProc i d hd j hj hid
        · rw [List.mem_singleton] at hj
          subst hj
          have hlt := inv.busyLt i d hd
          simp [freshJob] at hid
          omega
      · intro i d hd
        exact Nat.lt_succ_of_lt (inv.busyLt i d hd)
  | start =>
    simp only [applyEvent] at h
    injection h with h
    subst h
    exact inv_startProcessing inv
  | poll =>
    simp only [applyEvent] at h
    cases hw : s.worker with
    | off => rw [hw] at h; simp at h
    | busy i0 d0 => rw [hw] at h; simp at h
    | looking =>
      rw [hw] at h
      cases hfo : findOldestPending s.jobs with
      | none =>
        rw [hfo] at h
        injection h with h
        subst h
        refine ⟨inv.jobOK, inv.idLt, inv.idsSorted, ?_, ?_, ?_⟩
        · intro j hj hp
          rcases inv.procBusy j hj hp with ⟨d, hd⟩
          rw [hw] at hd
          exact absurd hd (by simp)
        · intro i d hd
          exact absurd hd (by simp)
        · intro i d hd
          exact absurd hd (by simp)
      | some jv =>
        rw [hfo] at h
        injection h with h
        subst h
        obtain ⟨hvmem, hvpend, _⟩ := findOldestPending_spec hfo
        have hgid : ∀ k : Job,
            ((fun k : Job => { k with status := JobStatus.processing }) k).id
              = k.id := fun _ => rfl
        refine ⟨?_, ?_, ?_, ?_, ?_, ?_⟩
        · intro j2 hj2
          rcases mem_updJob_elim hj2 with ⟨j, hj, hcase⟩
          rcases hcase with ⟨hid, rfl⟩ | ⟨_, rfl⟩
          · have hje : j = jv := id_inj inv.idsSorted j hj jv hvmem hid
            exact jobInv_processing (inv.jobOK j hj) (by rw [hje]; exact hvpend)
          · exact inv.jobOK j2 hj
        · intro j2 hj2
          rcases mem_updJob_elim hj2 with ⟨j, hj, hcase⟩
          rcases hcase with ⟨_, rfl⟩ | ⟨_, rfl⟩
          · exact lt_of_eq_of_lt (hgid j) (inv.idLt j hj)
          · exact inv.idLt j2 hj
        · have hp := inv.idsSorted
          rw [← updJob_map_id hgid] at hp
          exact hp
        · intro j2 hj2 hp
          rcases mem_updJob_elim hj2 with ⟨j, hj, hcase⟩
          rcases hcase with ⟨hid, rfl⟩ | ⟨_, rfl⟩
          · exact ⟨false, congrArg (fun n => WorkerPhase.busy n false) hid.symm⟩
          · rcases inv.procBusy j2 hj hp with ⟨d, hd⟩
            rw [hw] at hd
            exact absurd hd (by simp)
        · intro i d hd j2 hj2 hid2
          injection hd with h1 h2
          rcases mem_updJob_elim hj2 with ⟨j, hj, hcase⟩
          rcases hcase with ⟨_, rfl⟩ | ⟨hne, rfl⟩
          · rfl
          · exact absurd (h1 ▸ hid2) hne
        · intro i d hd
          injection hd with h1 _
          exact h1 ▸ inv.idLt jv hvmem
  | probe d =>
    simp only [applyEvent] at h
    cases hw : s.worker with
    | off => rw [hw] at h; simp at h
    | looking => rw [hw] at h; simp at h
    | busy i0 d0 =>
      rw [hw] at h
      cases d0 with
      | true => simp at h
      | false =>
        injection h with h
        subst h
        have hgid : ∀ k : Job,
            ((fun k => if k.durationSeconds = none
              then { k with durationSeconds := d } else k) k).id = k.id := by
          intro k
          by_cases hk : k.durationSeconds = none <;> simp [hk]
        have hgst : ∀ k : Job,
            ((fun k => if k.durationSeconds = none
              then { k with durationSeconds := d } else k) k).status
              = k.status := by
          intro k
          by_cases hk : k.durationSeconds = none <;> simp [hk]
        refine ⟨?_, ?_, ?_, ?_, ?_, ?_⟩
        · intro j2 hj2
          rcases mem_updJob_elim hj2 with ⟨j, hj, hcase⟩
          rcases hcase with ⟨_, rfl⟩ | ⟨_, rfl⟩
          · by_cases hk : j.durationSeconds = none
            · show JobInv (if j.durationSeconds = none
                then { j with durationSeconds := d } else j)
              rw [if_pos hk]
              exact jobInv_duration (inv.jobOK j hj) d
            · show JobInv (if j.durationSeconds = none
                then { j with durationSeconds := d } else j)
              rw [if_neg hk]
              exact inv.jobOK j hj
          · exact inv.jobOK j2 hj
        · intro j2 hj2
          rcases mem_updJob_elim hj2 with ⟨j, hj, hcase⟩
          rcases hcase with ⟨_, rfl⟩ | ⟨_, rfl⟩
          · exact lt_of_eq_of_lt (hgid j) (inv.idLt j hj)
          · exact inv.idLt j2 hj
        · have hp := inv.idsSorted
          rw [← updJob_map_id hgid] at hp
          exact hp
        · intro j2 hj2 hp
          rcases mem_updJob_elim hj2 with ⟨j, hj, hcase⟩
          rcases hcase with ⟨_, rfl⟩ | ⟨_, rfl⟩
          · have hjp : j.status = JobStatus.processing := (hgst j) ▸ hp
            rcases inv.procBusy j hj hjp with ⟨dd, hdd⟩
            rw [hw] at hdd
            injection hdd with hi _
            exact ⟨true, congrArg (fun n => WorkerPhase.busy n true)
              ((hgid j).symm ▸ hi)⟩
          · rcases inv.procBusy j2 hj hp with ⟨dd, hdd⟩
            rw [hw] at hdd
            injection hdd with hi _
            exact ⟨true, congrArg (fun n => WorkerPhase.busy n true) hi⟩
        · intro i d2 hd j2 hj2 hid2
          injection hd with h1 _
          rcases mem_updJob_elim hj2 with ⟨j, hj, hcase⟩
          rcases hcase with ⟨_, rfl⟩ | ⟨_, rfl⟩
          · rw [hgst j]
            exact inv.busyProc i0 false hw j hj (h1 ▸ (hgid j) ▸ hid2)
          · exact inv.busyProc i0 false hw j2 hj (h1 ▸ hid2)
        · intro i d2 hd
          injection hd with h1 _
          exact h1 ▸ inv.busyLt i0 false hw
  | finish env t =>
    simp only [applyEvent] at h
    cases hw : s.worker with
    | off => rw [hw] at h; simp at h
    | looking => rw [hw] at h; simp at h
    | busy i0 d0 =>
      rw [hw] at h
      cases d0 with
      | false => simp at h
      | true =>
        injection h with h
        subst h
        have hgid : ∀ k : Job, (finishJob env t k).id = k.id :=
          finishJob_id env t
        refine ⟨?_, ?_, ?_, ?_, ?_, ?_⟩
        · intro j2 hj2
          rcases mem_updJob_elim hj2 with ⟨j, hj, hcase⟩
          rcases hcase with ⟨hid, rfl⟩ | ⟨_, rfl⟩
          · have hjp := inv.busyProc i0 true hw j hj hid
            exact jobInv_finish env t ((inv.jobOK j hj).1 (Or.inr hjp))
          · exact inv.jobOK j2 hj
        · intro j2 hj2
          rcases mem_updJob_elim hj2 with ⟨j, hj, hcase⟩
          rcases hcase with ⟨_, rfl⟩ | ⟨_, rfl⟩
          · exact lt_of_eq_of_lt (hgid j) (inv.idLt j hj)
          · exact inv.idLt j2 hj
        · have hp := inv.idsSorted
          rw [← updJob_map_id hgid] at hp
          exact hp
        · intro j2 hj2 hp
          rcases mem_updJob_elim hj2 with ⟨j, hj, hcase⟩
          rcases hcase with ⟨_, rfl⟩ | ⟨hne, rfl⟩
          · exact absurd hp (finishJob_status env t j)
          · rcases inv.procBusy j2 hj hp with ⟨dd, hdd⟩
            rw [hw] at hdd
            injection hdd with hi _
            exact absurd hi.symm hne
        · intro i d2 hd
          exact absurd hd (by simp)
        · intro i d2 hd
          exact absurd hd (by simp)
  | retry rid =>
    simp only [applyEvent] at h
    cases hf : s.jobs.find? (fun j => decide (j.id = rid)) with
    | none =>
      rw [hf] at h
      injection h with h
      subst h
      exact inv
    | some j =>
      rw [hf] at h
      replace h : (if j.status = JobStatus.failed
          then some (startProcessing
            { s with jobs := updJob s.jobs rid retryJob })
          else some s) = some s2 := h
      by_cases hst : j.status = JobStatus.failed
      · rw [if_pos hst] at h
        injection h with h
        subst h
        apply inv_startProcessing
        refine ⟨?_, ?_, ?_, ?_, ?_, ?_⟩
        · intro j2 hj2
          rcases mem_updJob_elim hj2 with ⟨k, hk, hcase⟩
          rcases hcase with ⟨_, rfl⟩ | ⟨_, rfl⟩
          · exact jobInv_retry (inv.jobOK k hk)
          · exact inv.jobOK j2 hk
        · intro j2 hj2
          rcases mem_updJob_elim hj2 with ⟨k, hk, hcase⟩
          rcases hcase with ⟨_, rfl⟩ | ⟨_, rfl⟩
          · exact lt_of_eq_of_lt (retryJob_id k) (inv.idLt k hk)
          · exact inv.idLt j2 hk
        · have hp := inv.idsSorted
          rw [← updJob_map_id retryJob_id] at hp
          exact hp
        · intro j2 hj2 hp
          rcases mem_updJob_elim hj2 with ⟨k, hk, hcase⟩
          rcases hcase with ⟨_, rfl⟩ | ⟨_, rfl⟩
          · have hks : k.status = JobStatus.processing := by
              unfold retryJob at hp
              by_cases hkf : k.status = JobStatus.failed
              · rw [if_pos hkf] at hp
                exact absurd hp (by simp)
              · rw [if_neg hkf] at hp
                exact hp
            rcases inv.procBusy k hk hks with ⟨dd, hdd⟩
            exact ⟨dd, by rw [retryJob_id]; exact hdd⟩
          · exact inv.procBusy j2 hk hp
        · intro i d2 hd j2 hj2 hid2
          rcases mem_updJob_elim hj2 with ⟨k, hk, hcase⟩
          rcases hcase with ⟨_, rfl⟩ | ⟨_, rfl⟩
          · have hks := inv.busyProc i d2 hd k hk ((retryJob_id k) ▸ hid2)
            unfold retryJob
            rw [if_neg (by rw [hks]; simp)]
            exact hks
          · exact inv.busyProc i d2 hd j2 hk hid2
        · exact inv.busyLt
      · rw [if_neg hst] at h
        injection h with h
        subst h
        exact inv

/-- Every reachable state satisfies the global invariant. -/
theorem reachable_inv {s : SchedState} (h : Reachable s) : StateInv s := by
  induction h with
  | init => exact inv_initState
  | step _ he ih => exact inv_applyEvent ih he

/-- A successful trace from a reachable state ends in a reachable state. -/
theorem reachable_applyTrace :
    ∀ {es : List SchedEvent} {s s2 : SchedState},
      Reachable s → applyTrace s es = some s2 → Reachable s2
  | [], _, _, hr, h => by
    injection h with h
    exact h ▸ hr
  | e :: es, s, s2, hr, h => by
    simp only [applyTrace] at h
    cases he : applyEvent s e with
    | none => rw [he] at h; cases h
    | some s1 =>
      rw [he] at h
      exact reachable_applyTrace (Reachable.step hr he) h

theorem startProcessing_jobs (s : SchedState) :
    (startProcessing s).jobs = s.jobs := by
  unfold startProcessing
  by_cases h : s.worker = WorkerPhase.off <;> simp [h]

/-- Claim C1: `start_processing` is idempotent under the single-flight
guard: whenever the running flag is set, a further call returns without
spawning a second worker and without changing the flag or any job record
(the state is unchanged); consequently, in every reachable state of the
scheduler at most one job has status processing. -/
theorem startProcessing_single_flight (s : SchedState) (h : Reachable s) :
    (running s → startProcessing s = s) ∧
    (s.jobs.filter
      (fun j => decide (j.status = JobStatus.processing))).length ≤ 1 := by
  have inv := reachable_inv h
  constructor
  · intro hr
    exact if_neg hr
  · cases hl : s.jobs.filter
        (fun j => decide (j.status = JobStatus.processing)) with
    | nil => simp
    | cons a tail =>
      cases tail with
      | nil => simp
      | cons b tail2 =>
        exfalso
        have hamem : a ∈ s.jobs.filter
            (fun j => decide (j.status = JobStatus.processing)) := by
          rw [hl]
          exact List.mem_cons_self _ _
        have hbmem : b ∈ s.jobs.filter
            (fun j => decide (j.status = JobStatus.processing)) := by
          rw [hl]
          exact List.mem_cons_of_mem _ (List.mem_cons_self _ _)
        rw [List.mem_filter] at hamem hbmem
        have hap : a.status = JobStatus.processing :=
          of_decide_eq_true hamem.2
        have hbp : b.status = JobStatus.processing :=
          of_decide_eq_true hbmem.2
        rcases inv.procBusy a hamem.1 hap with ⟨d1, hd1⟩
        rcases inv.procBusy b hbmem.1 hbp with ⟨d2, hd2⟩
        rw [hd1] at hd2
        injection hd2 with hid _
        have hpf : List.Pairwise (fun x y : Job => x.id < y.id)
            (s.jobs.filter
              (fun j => decide (j.status = JobStatus.processing))) :=
          (List.pairwise_map.1 inv.idsSorted).sublist (List.filter_sublist _)
        rw [hl] at hpf
        have hlt := (List.pairwise_cons.1 hpf).1 b (List.mem_cons_self _ _)
        omega

/-- Witness for `startProcessing_single_flight` at the reachable state whose
worker is running over an empty queue. -/
theorem startProcessing_single_flight_witness :
    startProcessing s1Looking = s1Looking ∧
    (s1Looking.jobs.filter
      (fun j => decide (j.status = JobStatus.processing))).length ≤ 1 := by
  have hr : Reachable s1Looking := Reachable.step Reachable.init
    (show applyEvent initState SchedEvent.start = some s1Looking by decide)
  have h := startProcessing_single_flight s1Looking hr
  exact ⟨h.1 (by decide : s1Looking.worker ≠ WorkerPhase.off), h.2⟩

/-- Claim C2: the worker claim query returns, among the currently pending
jobs, one with the minimum `createdAt`, breaking ties by insertion order
(equivalently, by lowest id when ids are sorted in insertion order), and
returns nothing exactly when no job is pending; a poll on an empty queue
releases the single-flight guard, and a poll with a pending job claims the
returned job by marking it processing. -/
theorem findOldestPending_fifo :
    (∀ jobs : List Job, findOldestPending jobs = none ↔
      ∀ j ∈ jobs, j.status ≠ JobStatus.pending) ∧
    (∀ (jobs : List Job) (j : Job), findOldestPending jobs = some j →
      j ∈ jobs ∧ j.status = JobStatus.pending ∧
      ∀ k ∈ jobs, k.status = JobStatus.pending →
        j.createdAt ≤ k.createdAt) ∧
    (∀ (jobs : List Job) (j : Job),
      List.Pairwise (· < ·) (jobs.map (fun j => j.id)) →
      findOldestPending jobs = some j →
      ∀ k ∈ jobs, k.status = JobStatus.pending →
        k.createdAt = j.createdAt → j.id ≤ k.id) ∧
    (∀ s : SchedState, s.worker = WorkerPhase.looking →
      findOldestPending s.jobs = none →
      applyEvent s SchedEvent.poll
        = some { s with worker := WorkerPhase.off }) ∧
    (∀ (s : SchedState) (j : Job), s.worker = WorkerPhase.looking →
      findOldestPending s.jobs = some j →
      applyEvent s SchedEvent.poll = some { s with
        jobs := updJob s.jobs j.id
          (fun k => { k with status := JobStatus.processing })
        worker := WorkerPhase.busy j.id false }) := by
  refine ⟨findOldestPending_none_iff,
    fun jobs j h => findOldestPending_spec h,
    fun jobs j hs h => findOldestPending_tie hs h, ?_, ?_⟩
  · intro s hw hfo
    simp [applyEvent, hw, hfo]
  · intro s j hw hfo
    simp [applyEvent, hw, hfo]

/-- Witness for `findOldestPending_fifo`: draining an empty queue releases
the guard, and with two equal-timestamp pending jobs the earlier id wins. -/
theorem findOldestPending_fifo_witness :
    applyEvent s1Looking SchedEvent.poll
      = some { s1Looking with worker := WorkerPhase.off } ∧
    jTieA.id ≤ jTieB.id := by
  refine ⟨findOldestPending_fifo.2.2.2.1 s1Looking rfl rfl, ?_⟩
  exact findOldestPending_fifo.2.2.1 [jTieA, jTieB] jTieA
    (by with_unfolding_all decide) (by with_unfolding_all decide)
    jTieB (by with_unfolding_all decide) (by with_unfolding_all decide)
    (by with_unfolding_all decide)

/-- Claim C3: in every reachable state no record is partially populated
(each job has either none or all of the four outputs); every failed record
has an error message, a processed time and none of the four outputs; every
done record has all four outputs and a processed time. Moreover the single
finish commit of the worker produces, on pipeline failure, exactly the
failed-status update leaving all outputs untouched, and on success a record
with status done and all four outputs populated together. -/
theorem worker_atomic_outputs (s : SchedState) (h : Reachable s) :
    (∀ j ∈ s.jobs, noOutputs j ∨ allOutputs j) ∧
    (∀ j ∈ s.jobs, j.status = JobStatus.failed →
      j.errorMessage.isSome ∧ j.processedAt.isSome ∧ noOutputs j) ∧
    (∀ j ∈ s.jobs, j.status = JobStatus.done →
      allOutputs j ∧ j.processedAt.isSome) ∧
    (∀ (env : PipelineEnv) (t : Nat) (j : Job) (msg : String),
      runPipeline env = PipelineOutcome.failure msg →
      finishJob env t j = { j with
        status := JobStatus.failed
        errorMessage := some msg
        processedAt := some t }) ∧
    (∀ (env : PipelineEnv) (t : Nat) (j : Job) (segs : List Segment),
      runPipeline env = PipelineOutcome.success segs →
      (finishJob env t j).status = JobStatus.done ∧
      allOutputs (finishJob env t j) ∧
      (finishJob env t j).processedAt = some t ∧
      (finishJob env t j).transcriptText = some (segmentsToText segs) ∧
      (finishJob env t j).segmentsJson = some segs) := by
  have inv := reachable_inv h
  refine ⟨?_, ?_, ?_, ?_, ?_⟩
  · intro j hj
    have hJ := inv.jobOK j hj
    cases hst : j.status with
    | pending => exact Or.inl (hJ.1 (Or.inl hst))
    | processing => exact Or.inl (hJ.1 (Or.inr hst))
    | failed => exact Or.inl (hJ.2.1 hst).1
    | done => exact Or.inr (hJ.2.2 hst).1
  · intro j hj hf
    have hJ := inv.jobOK j hj
    exact ⟨(hJ.2.1 hf).2.1, (hJ.2.1 hf).2.2, (hJ.2.1 hf).1⟩
  · intro j hj hd
    exact inv.jobOK j hj |>.2.2 hd
  · intro env t j msg hrp
    unfold finishJob
    rw [hrp]
  · intro env t j segs hrp
    simp [finishJob, hrp, allOutputs]

set_option maxRecDepth 8000 in
/-- Witness for `worker_atomic_outputs` at the reachable state produced by
running one job to completion. -/
theorem worker_atomic_outputs_witness :
    (∀ j ∈ c3State.jobs, noOutputs j ∨ allOutputs j) ∧
    (∀ j ∈ c3State.jobs, j.status = JobStatus.done →
      allOutputs j ∧ j.processedAt.isSome) := by
  have htr : applyTrace initState c3Trace = some c3State := by
    with_unfolding_all decide
  have hr : Reachable c3State := reachable_applyTrace Reachable.init htr
  have h := worker_atomic_outputs c3State hr
  exact ⟨h.1, h.2.2.1⟩

/-- Claim C6: `retry` changes the record if and only if its status is
failed, in which case status becomes pending, error message and processed
time are cleared, and every other field — in particular `durationSeconds`
and the original `createdAt` (hence the queue position) — is preserved; on a
pending, processing or done record the whole state is unchanged. -/
theorem retry_frame_effect (s : SchedState) (rid : Nat) (j : Job)
    (hfind : s.jobs.find? (fun k => decide (k.id = rid)) = some j) :
    (j.status ≠ JobStatus.failed →
      applyEvent s (SchedEvent.retry rid) = some s) ∧
    (j.status = JobStatus.failed →
      applyEvent s (SchedEvent.retry rid)
        = some (startProcessing
            { s with jobs := updJob s.jobs rid retryJob }) ∧
      retryJob j = { j with
        status := JobStatus.pending
        errorMessage := none
        processedAt := none } ∧
      retryJob j ≠ j ∧
      (retryJob j).durationSeconds = j.durationSeconds ∧
      (retryJob j).createdAt = j.createdAt ∧
      (retryJob j).id = j.id ∧
      (retryJob j).filepath = j.filepath ∧
      (retryJob j).transcriptText = j.transcriptText ∧
      (retryJob j).segmentsJson = j.segmentsJson ∧
      (retryJob j).txtPath = j.txtPath ∧
      (retryJob j).srtPath = j.srtPath ∧
      retryJob j ∈ (startProcessing
        { s with jobs := updJob s.jobs rid retryJob }).jobs ∧
      (∀ k ∈ s.jobs, k.id ≠ rid →
        k ∈ (startProcessing
          { s with jobs := updJob s.jobs rid retryJob }).jobs)) ∧
    (∀ k : Job, k.status ≠ JobStatus.failed → retryJob k = k) := by
  have hjmem : j ∈ s.jobs := List.mem_of_find?_eq_some hfind
  have hjid : j.id = rid := by
    have h0 := List.find?_some hfind
    simpa using h0
  refine ⟨?_, ?_, ?_⟩
  · intro hne
    simp [applyEvent, hfind, hne]
  · intro hf
    have hrec : retryJob j = { j with
        status := JobStatus.pending
        errorMessage := none
        processedAt := none } := by
      unfold retryJob
      rw [if_pos hf]
    refine ⟨by simp [applyEvent, hfind, hf], hrec, ?_, ?_, ?_, ?_, ?_, ?_,
      ?_, ?_, ?_, ?_, ?_⟩
    · rw [hrec]
      intro heq
      have h2 := congrArg Job.status heq
      simp [hf] at h2
    · rw [hrec]
    · rw [hrec]
    · rw [hrec]
    · rw [hrec]
    · rw [hrec]
    · rw [hrec]
    · rw [hrec]
    · rw [hrec]
    · rw [startProcessing_jobs]
      exact mem_updJob_self hjmem hjid
    · intro k hk hkne
      rw [startProcessing_jobs]
      exact mem_updJob_of_ne hk hkne
  · intro k hk
    unfold retryJob
    rw [if_neg hk]

/-- Witness for `retry_frame_effect` at a store holding one failed job. -/
theorem retry_frame_effect_witness :
    sRetry.jobs.find? (fun k => decide (k.id = 1)) = some jFailed ∧
    applyEvent sRetry (SchedEvent.retry 1)
      = some (startProcessing
          { sRetry with jobs := updJob sRetry.jobs 1 retryJob }) ∧
    retryJob jFailed = { jFailed with
      status := JobStatus.pending
      errorMessage := none
      processedAt := none } ∧
    (retryJob jFailed).durationSeconds = jFailed.durationSeconds ∧
    (retryJob jFailed).createdAt = jFailed.createdAt := by
  have hfind : sRetry.jobs.find? (fun k => decide (k.id = 1))
      = some jFailed := by with_unfolding_all decide
  have h := retry_frame_effect sRetry 1 jFailed hfind
  have h2 := h.2.1 (by with_unfolding_all decide)
  exact ⟨hfind, h2.1, h2.2.1, h2.2.2.2.1, h2.2.2.2.2.1⟩

/-- Claim C8: an exception in the pipeline of one job is converted into
that job failed transition and does not stop the loop: the finish commit is
always enabled when the worker is busy, leaves the worker looking at the
queue again, records the failure message on the failed job and touches no
other record; a subsequent poll claims the next pending job. Concretely, in
a two-job run whose first job hits a missing extraction tool, the first job
ends failed with the tool-not-found message and the second still ends
done. -/
theorem worker_failure_isolation :
    (∀ (s : SchedState) (i : Nat) (env : PipelineEnv) (t : Nat),
      s.worker = WorkerPhase.busy i true →
      applyEvent s (SchedEvent.finish env t)
        = some { s with
            jobs := updJob s.jobs i (finishJob env t)
            worker := WorkerPhase.looking } ∧
      (∀ msg, runPipeline env = PipelineOutcome.failure msg →
        ∀ j ∈ s.jobs, j.id = i →
          { j with
            status := JobStatus.failed
            errorMessage := some msg
            processedAt := some t }
            ∈ updJob s.jobs i (finishJob env t)) ∧
      (∀ k ∈ s.jobs, k.id ≠ i → k ∈ updJob s.jobs i (finishJob env t))) ∧
    (∀ (s : SchedState) (k : Job), s.worker = WorkerPhase.looking →
      findOldestPending s.jobs = some k →
      applyEvent s SchedEvent.poll = some { s with
        jobs := updJob s.jobs k.id
          (fun j => { j with status := JobStatus.processing })
        worker := WorkerPhase.busy k.id false }) ∧
    (applyTrace initState c8Trace).map (fun s =>
        (s.worker, s.jobs.map (fun j => (j.id, j.status, j.errorMessage))))
      = some (WorkerPhase.off,
          [(1, JobStatus.failed, some ffmpegNotFoundMsg),
           (2, JobStatus.done, none)]) := by
  refine ⟨?_, ?_, ?_⟩
  · intro s i env t hw
    refine ⟨by simp [applyEvent, hw], ?_, ?_⟩
    · intro msg hmsg j hj hid
      have hmem : finishJob env t j ∈ updJob s.jobs i (finishJob env t) :=
        mem_updJob_self hj hid
      have heq : finishJob env t j = { j with
          status := JobStatus.failed
          errorMessage := some msg
          processedAt := some t } := by
        unfold finishJob
        rw [hmsg]
      rw [← heq]
      exact hmem
    · intro k hk hkne
      exact mem_updJob_of_ne hk hkne
  · intro s k hw hfo
    simp [applyEvent, hw, hfo]
  · with_unfolding_all decide

/-- Witness for `worker_failure_isolation`: the finish step applied at a
busy state whose pipeline hits the missing extraction tool. -/
theorem worker_failure_isolation_witness :
    applyEvent sBusy (SchedEvent.finish envPipeNoTool 10)
      = some { sBusy with
          jobs := updJob sBusy.jobs 1 (finishJob envPipeNoTool 10)
          worker := WorkerPhase.looking } ∧
    { jProc with
      status := JobStatus.failed
      errorMessage := some ffmpegNotFoundMsg
      processedAt := some 10 }
      ∈ updJob sBusy.jobs 1 (finishJob envPipeNoTool 10) := by
  have h := worker_failure_isolation.1 sBusy 1 envPipeNoTool 10 rfl
  exact ⟨h.1, h.2.1 ffmpegNotFoundMsg rfl jProc
    (List.mem_cons_self _ _) rfl⟩

/-- Claim C9 (counterexample): a missing transcription credential is not
surfaced before a job is claimed: in the worker model with the credential
absent, an enqueued job is claimed (status processing) and then transitions
to failed with the credential error as its error message — exactly the
processing-then-failed path the claim rules out. -/
theorem credential_missing_per_job_counterexample :
    (applyTrace initState [SchedEvent.enqueue "/v/a.mp4" "/v" none 1,
        SchedEvent.start, SchedEvent.poll]).map
      (fun s => s.jobs.map (fun j => j.status))
      = some [JobStatus.processing] ∧
    (applyTrace initState [SchedEvent.enqueue "/v/a.mp4" "/v" none 1,
        SchedEvent.start, SchedEvent.poll, SchedEvent.probe none,
        SchedEvent.finish envPipeNoCred 5]).map
      (fun s => s.jobs.map (fun j => (j.status, j.errorMessage)))
      = some [(JobStatus.failed, some credentialErrorMsg)] := by
  constructor <;> with_unfolding_all decide

/-- Claim C9 (amended): the missing credential surfaces inside the per-job
pipeline, after the job is claimed: with no credential configured (and the
extraction tool present), the pipeline outcome is the credential failure,
the finish commit marks the claimed job failed with the credential error
message, and the worker continues with the loop rather than halting. -/
theorem credential_missing_per_job_amended (s : SchedState) (i : Nat)
    (env : PipelineEnv) (t : Nat) (hw : s.worker = WorkerPhase.busy i true)
    (hcred : env.credential = false) (hff : env.ffmpeg = RunOutcome.ok) :
    runPipeline env = PipelineOutcome.failure credentialErrorMsg ∧
    ∃ s2, applyEvent s (SchedEvent.finish env t) = some s2 ∧
      s2.worker = WorkerPhase.looking ∧
      ∀ j ∈ s.jobs, j.id = i →
        { j with
          status := JobStatus.failed
          errorMessage := some credentialErrorMsg
          processedAt := some t } ∈ s2.jobs := by
  have hrp : runPipeline env = PipelineOutcome.failure credentialErrorMsg := by
    unfold runPipeline
    rw [hff, hcred]
    simp
  refine ⟨hrp, { s with
    jobs := updJob s.jobs i (finishJob env t)
    worker := WorkerPhase.looking }, by simp [applyEvent, hw], rfl, ?_⟩
  intro j hj hid
  have hmem : finishJob env t j ∈ updJob s.jobs i (finishJob env t) :=
    mem_updJob_self hj hid
  have heq : finishJob env t j = { j with
      status := JobStatus.failed
      errorMessage := some credentialErrorMsg
      processedAt := some t } := by
    unfold finishJob
    rw [hrp]
  rw [← heq]
  exact hmem

/-- Witness for `credential_missing_per_job_amended` at a busy state and the
credential-free environment. -/
theorem credential_missing_per_job_amended_witness :
    runPipeline envPipeNoCred = PipelineOutcome.failure credentialErrorMsg ∧
    ∃ s2, applyEvent sBusy (SchedEvent.finish envPipeNoCred 5) = some s2 ∧
      s2.worker = WorkerPhase.looking ∧
      ∀ j ∈ sBusy.jobs, j.id = 1 →
        { j with
          status := JobStatus.failed
          errorMessage := some credentialErrorMsg
          processedAt := some 5 } ∈ s2.jobs :=
  credential_missing_per_job_amended sBusy 1 envPipeNoCred 5 rfl rfl rfl

/-- Claim C10: `get_video_duration` is total — every probe outcome yields
`some` duration or `none`, never an exception: a raised call gives `none`, a
nonzero exit gives `none`, an unparseable stdout gives `none`, a parseable
stdout gives its value; consequently an enqueue (which stores the probe
result) is always enabled, so probing a duration can never fail an
enqueue. -/
theorem getVideoDuration_total :
    getVideoDuration ProbeOutcome.raised = none ∧
    (∀ (c : Nat) (out : String), c ≠ 0 →
      getVideoDuration (ProbeOutcome.exited c out) = none) ∧
    (∀ out : String, pyFloat (pyStrip out) = none →
      getVideoDuration (ProbeOutcome.exited 0 out) = none) ∧
    (∀ (out : String) (q : ℚ), pyFloat (pyStrip out) = some q →
      getVideoDuration (ProbeOutcome.exited 0 out) = some q) ∧
    (∀ (s : SchedState) (fp folder : String) (d : Option ℚ) (now : Nat),
      (applyEvent s (SchedEvent.enqueue fp folder d now)).isSome) := by
  refine ⟨rfl, ?_, ?_, ?_, ?_⟩
  · intro c out hc
    simp [getVideoDuration, hc]
  · intro out h
    simp [getVideoDuration, h]
  · intro out q h
    simp [getVideoDuration, h]
  · intro s fp folder d now
    simp only [applyEvent]
    by_cases hex : s.jobs.any (fun j => decide (j.filepath = fp)) = true
    · rw [if_pos hex]
      rfl
    · rw [if_neg hex]
      rfl

/-- Witness for `getVideoDuration_total`: a nonzero exit yields `none` and a
parseable probe output yields its value. -/
theorem getVideoDuration_total_witness :
    getVideoDuration (ProbeOutcome.exited 1 "oops") = none ∧
    pyFloat (pyStrip " 12.5\n") = some (25/2) ∧
    getVideoDuration (ProbeOutcome.exited 0 " 12.5\n") = some (25/2) := by
  refine ⟨getVideoDuration_total.2.1 1 "oops" (by decide), ?_, ?_⟩
  · with_unfolding_all decide
  · exact getVideoDuration_total.2.2.2.1 " 12.5\n" (25/2)
      (by with_unfolding_all decide)
